import Mathlib

/-!
Verification of the modification-position extraction core (`extract.rs`):
the MM-tag decoder (`BaseMods::new`), the strand projector
(`positions_on_complimented_sequence`), the sorted-merge utility
(`merge_two_lists`), the per-record driver (`extract_from_record`) and the
chunked batch driver (`extract_contained`).

Shallow embedding conventions: byte values (`u8`) are `Nat`, `i64` values are
`Int` (the arithmetic in the source never overflows `i64`: indices come from
`usize` sequence positions and parsed distances are bounds-checked by
`str::parse`), Rust panics (`unwrap`, `assert_eq!`) are `Option.none`, and the
external `liftover_exact` collaborator is a function parameter `lift`.
-/

namespace Extract

/-- Auxiliary tag value of an alignment record (`rust_htslib::bam::record::Aux`):
the cases the source inspects (`Aux::String`, `Aux::ArrayU32`) plus a
catch-all for every other variant. -/
inductive Aux where
  | string (s : String)
  | arrayU32 (l : List Nat)
  | other
deriving DecidableEq

/-- External alignment record (`bam::Record`), restricted to the surface the
source consumes: sequence bytes (`seq().as_bytes()`), strand flag
(`is_reverse()`), mapped flag (`is_unmapped()`), and auxiliary tags
(`aux(tag)`, modelled as an association list). -/
structure Record where
  seq : List Nat
  is_reverse : Bool
  is_unmapped : Bool
  aux : List (String × Aux)
deriving DecidableEq

/-- Length of the stored sequence (`record.seq_len()`). -/
def Record.seq_len (r : Record) : Nat := r.seq.length

/-- Tag lookup (`record.aux(tag)`); `none` models `Err(_)` (tag absent). -/
def Record.auxTag (r : Record) (tag : String) : Option Aux :=
  (r.aux.find? (fun p => p.1 == tag)).map Prod.snd

/-- Function `positions_on_complimented_sequence` (extract.rs 16-28): if the
record aligned to the reverse strand, iterate the input positions in reverse
and map each `p` to `seq_len - p`; otherwise return the positions unchanged. -/
def positions_on_complimented_sequence (record : Record)
    (input_positions : List Int) : List Int :=
  if record.is_reverse then
    input_positions.reverse.map (fun p => (record.seq_len : Int) - p)
  else
    input_positions

/-- Function `merge_two_lists` (extract.rs 110-118): concatenate the two
vectors and sort the result (`[left, right].concat()` then `sort()`). -/
def merge_two_lists {T : Type*} [LinearOrder T] (left right : List T) : List T :=
  ([left, right].flatten).mergeSort (fun a b => decide (a ≤ b))

/-- The position-resolution loop of `BaseMods::new` (extract.rs lines 64-78):
scan the forward-strand bases left to right while distances remain, keeping a
counter of canonical-base occurrences since the last consumed distance
(`dist_from_last_mod_base`); on a canonical base with counter equal to the next
distance, record the current index, reset the counter and advance to the next
distance; on a canonical base otherwise, increment the counter; skip other
bases.  Returns the recorded positions together with the distances left
unconsumed when the loop exits. -/
def resolveGo (base : Nat) : List Nat → List Int → Int → Nat → List Int × List Int
  | [], dists, _, _ => ([], dists)
  | _ :: _, [], _, _ => ([], [])
  | c :: rest, d :: ds, ctr, i =>
    if c = base ∧ ctr = d then
      ((i : Int) :: (resolveGo base rest ds 0 (i + 1)).1,
        (resolveGo base rest ds 0 (i + 1)).2)
    else if c = base then
      resolveGo base rest (d :: ds) (ctr + 1) (i + 1)
    else
      resolveGo base rest (d :: ds) ctr (i + 1)

/-- The scan of `BaseMods::new` followed by its `assert_eq!(cur_mod_idx,
mod_dists.len())` (extract.rs line 80): `none` models the panic when the
sequence ends before every distance is consumed. -/
def resolvePositions (base : Nat) (seq : List Nat) (dists : List Int) :
    Option (List Int) :=
  if (resolveGo base seq dists 0 0).2 = [] then some (resolveGo base seq dists 0 0).1
  else none

/-! Model of `MM_RE` (extract.rs 34-35), the regex
`((([ACGTUN])([-+])([a-z]+|[0-9]+))[.?]?((,[0-9]+)*;)*)` under the `regex`
crate's leftmost-first semantics.  On this pattern matching is deterministic:
every quantified subpattern is followed by a continuation that can match the
empty string, so the greedy choice never backtracks, except inside
`((,[0-9]+)*;)`, where a comma-digit chain not followed by `;` makes the whole
repetition fail and consume nothing. -/

/-- Character class `[ACGTUN]` (capture group 3). -/
def isMMBase (c : Char) : Bool :=
  c == 'A' || c == 'C' || c == 'G' || c == 'T' || c == 'U' || c == 'N'

/-- Character class `[-+]` (capture group 4). -/
def isMMSign (c : Char) : Bool := c == '-' || c == '+'

/-- Greedy parse of `(,[0-9]+)*` at the head of `l`: the maximal chain of
comma-plus-digit-run blocks.  Returns the consumed characters and the rest;
consumes nothing when no block parses.  `fuel` bounds the number of blocks;
every block consumes at least two characters, so any `fuel ≥ l.length` gives
the exact result (theorem `parseDistChain_fuel`). -/
def parseDistChain : Nat → List Char → List Char × List Char
  | 0, l => ([], l)
  | fuel + 1, ',' :: rest =>
    if (rest.takeWhile Char.isDigit).isEmpty then ([], ',' :: rest)
    else
      (',' :: (rest.takeWhile Char.isDigit ++
          (parseDistChain fuel (rest.dropWhile Char.isDigit)).1),
        (parseDistChain fuel (rest.dropWhile Char.isDigit)).2)
  | _ + 1, l => ([], l)

/-- Greedy parse of `((,[0-9]+)*;)*`: repetitions of a distance chain
terminated by a semicolon.  A repetition whose chain is not followed by `;`
fails and consumes nothing (the scan resumes at `l`).  `last` carries the text
of the most recent successful repetition, which is what a repeated capture
group reports (group 6).  `fuel` bounds the iteration count; every repetition
consumes at least the `;`, so any `fuel > l.length` gives the exact result
(theorem `parseDistReps_fuel`). -/
def parseDistReps :
    Nat → List Char → Option (List Char) → Option (List Char) × List Char
  | 0, l, last => (last, l)
  | fuel + 1, l, last =>
    match (parseDistChain l.length l).2 with
    | ';' :: rest2 =>
        parseDistReps fuel rest2 (some ((parseDistChain l.length l).1 ++ [';']))
    | _ => (last, l)

/-- One `MM_RE` capture: canonical base (group 3), strand sign (group 4),
modification code (group 5), and the last semicolon-terminated distance run
(group 6, `none` when the starred group matched zero times). -/
structure MMCapture where
  base : Char
  sign : Char
  code : List Char
  dists : Option (List Char)
deriving DecidableEq

/-- Consumption of the optional `[.?]` marker of `MM_RE` (greedy: taken when
present; the continuation always matches, so this never backtracks). -/
def skipMarker : List Char → List Char
  | c :: rest => if c == '.' || c == '?' then rest else c :: rest
  | [] => []

/-- Completion of an anchored `MM_RE` match after base, sign and modification
code: the optional `[.?]` character, then the distance runs. -/
def finishMMMatch (b s : Char) (code l : List Char) : MMCapture × List Char :=
  (⟨b, s, code,
      (parseDistReps ((skipMarker l).length + 1) (skipMarker l) none).1⟩,
    (parseDistReps ((skipMarker l).length + 1) (skipMarker l) none).2)

/-- One attempted `MM_RE` match anchored at the start of `l`: a base
character, a sign character, then `[a-z]+|[0-9]+` (the alternation prefers the
lowercase branch; both runs are greedy and maximal).  Returns the capture and
the suffix after the match, or `none` when no match starts here. -/
def matchMMAt : List Char → Option (MMCapture × List Char)
  | b :: s :: rest =>
    if isMMBase b && isMMSign s then
      if !(rest.takeWhile Char.isLower).isEmpty then
        some (finishMMMatch b s (rest.takeWhile Char.isLower)
          (rest.dropWhile Char.isLower))
      else if !(rest.takeWhile Char.isDigit).isEmpty then
        some (finishMMMatch b s (rest.takeWhile Char.isDigit)
          (rest.dropWhile Char.isDigit))
      else none
    else none
  | _ => none

/-- Iterator `MM_RE.captures_iter` (extract.rs 42): scan left to right,
attempting an anchored match at each position; on success emit the capture and
resume after the match (every match spans at least three characters), else
advance one character.  `fuel` bounds the steps; any `fuel ≥ l.length` gives
the exact result (theorem `mmCapturesGo_fuel`). -/
def mmCapturesGo : Nat → List Char → List MMCapture
  | 0, _ => []
  | _ + 1, [] => []
  | fuel + 1, c :: rest =>
    match matchMMAt (c :: rest) with
    | some (cap, rest2) => cap :: mmCapturesGo fuel rest2
    | none => mmCapturesGo fuel rest

/-- All `MM_RE` captures of a tag text, in order. -/
def mmCaptures (s : String) : List MMCapture :=
  mmCapturesGo s.data.length s.data

/-- Rust `trim_end_matches(';')` (extract.rs 49): remove every trailing
semicolon. -/
def trimEndSemis (l : List Char) : List Char :=
  (l.reverse.dropWhile (fun c => c == ';')).reverse

/-- Rust `split(',')` (extract.rs 50): split at every comma, keeping empty
pieces. -/
def splitComma : List Char → List (List Char)
  | [] => [[]]
  | c :: rest =>
    if c = ',' then [] :: splitComma rest
    else
      match splitComma rest with
      | t :: ts => (c :: t) :: ts
      | [] => [[c]]

/-- Rust `str::trim` (extract.rs 51): strip leading and trailing whitespace. -/
def trimChars (l : List Char) : List Char :=
  ((l.dropWhile Char.isWhitespace).reverse.dropWhile Char.isWhitespace).reverse

/-- Decimal value of a digit run, most significant first. -/
def digitsVal : List Char → Nat → Nat
  | [], acc => acc
  | c :: rest, acc => digitsVal rest (acc * 10 + (c.toNat - 48))

/-- Unsigned digit-run parse: at least one character, all ASCII digits. -/
def parseI64Mag (l : List Char) : Option Nat :=
  if !l.isEmpty && l.all Char.isDigit then some (digitsVal l 0) else none

/-- Rust `str::parse::<i64>` (extract.rs 53): an optional sign followed by at
least one ASCII digit, rejecting all other text and values outside the `i64`
range; `none` models the `unwrap` panic of the caller. -/
def parseI64 (l : List Char) : Option Int :=
  match l with
  | '+' :: rest =>
    (parseI64Mag rest).bind fun n =>
      if n ≤ 2 ^ 63 - 1 then some (n : Int) else none
  | '-' :: rest =>
    (parseI64Mag rest).bind fun n =>
      if n ≤ 2 ^ 63 then some (-(n : Int)) else none
  | _ =>
    (parseI64Mag l).bind fun n =>
      if n ≤ 2 ^ 63 - 1 then some (n : Int) else none

/-- Distance-string parsing of `BaseMods::new` (extract.rs 48-54): trim
trailing semicolons, split at commas, trim each piece, drop empty pieces,
parse each remaining piece as `i64`. -/
def parseDists (l : List Char) : Option (List Int) :=
  (((splitComma (trimEndSemis l)).map trimChars).filter
    (fun t => !t.isEmpty)).mapM parseI64

/-- All characters of a distance chain are commas or digits. -/
def distRunChars (l : List Char) : Prop :=
  ∀ c ∈ l, c = ',' ∨ c.isDigit = true

/-- Shape of every group-6 capture: a comma-or-digit chain followed by one
terminating semicolon. -/
def goodDistRun (d : List Char) : Prop :=
  ∃ chain, d = chain ++ [';'] ∧ distRunChars chain

/-- DNA complement on sequence bytes, from the external `bio` crate's
`revcomp` collaborator (not part of this repository); modelled from its
documented behaviour.  Bytes outside the alphabet are irrelevant here. -/
def complementByte (b : Nat) : Nat :=
  if b = 65 then 84 else if b = 84 then 65
  else if b = 67 then 71 else if b = 71 then 67
  else if b = 85 then 65 else if b = 78 then 78
  else if b = 97 then 116 else if b = 116 then 97
  else if b = 99 then 103 else if b = 103 then 99
  else b

/-- External `bio::alphabets::dna::revcomp`: reverse complement. -/
def revcomp (l : List Nat) : List Nat := (l.reverse).map complementByte

/-- Forward-strand bases of `BaseMods::new` (extract.rs 57-61): the stored
sequence, reverse-complemented when the record aligned to the reverse
strand. -/
def forwardBases (record : Record) : List Nat :=
  if record.is_reverse then revcomp record.seq else record.seq

/-- Struct `BaseMods` (extract.rs 8-14). -/
structure BaseMods where
  modified_base : Nat
  strand : Char
  modification_type : Char
  modified_positions : List Int
  modified_reference_positions : List Int
deriving DecidableEq

/-- Method `BaseMods::add_reference_positions` (extract.rs 100-104), with the
external `liftover_exact` collaborator passed as `lift`: project the positions
to alignment orientation and lift them to reference coordinates. -/
def add_reference_positions (lift : Record → List Int → List Int)
    (record : Record) (m : BaseMods) : BaseMods :=
  { m with
    modified_reference_positions :=
      lift record
        (positions_on_complimented_sequence record m.modified_positions) }

/-- Decoding of one `MM_RE` capture inside `BaseMods::new` (extract.rs 43-92):
parse the distance string (`none` models the `parse().unwrap()` panic),
resolve the positions (`none` models the `assert_eq!` panic), build the group
(the code run is never empty, so `headD` only ever takes an actual head) and
attach its reference positions. -/
def processCapture (lift : Record → List Int → List Int) (record : Record)
    (cap : MMCapture) : Option BaseMods :=
  (parseDists (cap.dists.getD [])).bind fun mod_dists =>
    (resolvePositions cap.base.toNat (forwardBases record) mod_dists).bind
      fun positions =>
        some (add_reference_positions lift record
          { modified_base := cap.base.toNat
            strand := cap.sign
            modification_type := cap.code.headD ' '
            modified_positions := positions
            modified_reference_positions := [] })

/-- Capture loop of `BaseMods::new` (extract.rs 42-93): decode the captures in
order, a panic in any of them aborting the whole call. -/
def decodeCaptures (lift : Record → List Int → List Int) (record : Record) :
    List MMCapture → Option (List BaseMods)
  | [] => some []
  | cap :: caps =>
    (processCapture lift record cap).bind fun m =>
      (decodeCaptures lift record caps).map (fun ms => m :: ms)

/-- Constructor `BaseMods::new` (extract.rs 31-98): when the `MM` tag is
present and string-valued, decode all its captures (`none` models a panic);
otherwise the missing tag only produces a debug note and the empty list. -/
def BaseMods.new (lift : Record → List Int → List Int) (record : Record) :
    Option (List BaseMods) :=
  match record.auxTag "MM" with
  | some (Aux.string mm) => decodeCaptures lift record (mmCaptures mm)
  | _ => some []

/-- Function `get_u32_tag` (extract.rs 136-143): the values of a `u32`-array
tag widened to `i64`, or the empty vector when the tag is absent or not a
`u32` array. -/
def get_u32_tag (record : Record) (tag : String) : List Int :=
  match record.auxTag tag with
  | some (Aux.arrayU32 l) => l.map (fun x => (x : Int))
  | _ => []

/-- Function `extract_from_record` (extract.rs 145-155): decode the groups
(the discarded `get_u32_tag(record, b"nl")` call has no effect); the `for`
loop returns the first group's reference positions as soon as reference
projection is requested on a mapped record, and otherwise falls through to the
empty vector. -/
def extract_from_record (lift : Record → List Int → List Int) (record : Record)
    (reference : Bool) : Option (List Int) :=
  (BaseMods.new lift record).bind fun mods =>
    match mods with
    | [] => some []
    | moda :: _ =>
      if reference && !record.is_unmapped then
        some moda.modified_reference_positions
      else some []

/-- Chunk loop of `extract_contained` (extract.rs 159-175): push each record
onto the current chunk, flushing it whenever the running count reaches
`bin_size = 10_000`, and flush whatever remains when the stream ends
(extract.rs 177-180).  Returns the flushed chunks in order. -/
def extractChunks : List Record → List Record → Nat → List (List Record)
  | [], cur, _ => [cur]
  | r :: rs, cur, cnt =>
    if cnt + 1 = 10000 then (cur ++ [r]) :: extractChunks rs [] 0
    else extractChunks rs (cur ++ [r]) (cnt + 1)

/-- Function `extract_contained` (extract.rs 157-182): per flushed chunk, the
per-record results of `extract_from_record` (the source computes them through
a parallel iterator whose `collect` preserves chunk order). -/
def extract_contained (lift : Record → List Int → List Int)
    (records : List Record) (reference : Bool) :
    List (List (Option (List Int))) :=
  (extractChunks records [] 0).map
    (fun chunk => chunk.map (fun record => extract_from_record lift record reference))

/-- C2 -- `positions_on_complimented_sequence` returns the offsets unchanged on
a forward-strand record, and on a reverse-strand record returns each offset `p`
transformed to `L - p` with the overall ordering reversed (mapping and
reversing commute, so the code's reverse-then-map equals the spec's
map-then-reverse). -/
theorem c2_strand_projection (record : Record) (ps : List Int) :
    (record.is_reverse = false →
      positions_on_complimented_sequence record ps = ps) ∧
    (record.is_reverse = true →
      positions_on_complimented_sequence record ps =
        (ps.map (fun p => (record.seq_len : Int) - p)).reverse) := by
  constructor <;> intro h <;>
    simp [positions_on_complimented_sequence, h, List.map_reverse]

/-- C2 witness -- a reverse-strand record of length 20 with forward-offsets
`[3, 7]` projects to `[13, 17]` in that order. -/
theorem c2_strand_projection_witness :
    (positions_on_complimented_sequence
        ⟨List.replicate 20 65, true, false, []⟩ [3, 7] = [13, 17]) ∧
    (positions_on_complimented_sequence
        ⟨List.replicate 20 65, false, false, []⟩ [3, 7] = [3, 7]) := by
  refine ⟨?_, (c2_strand_projection ⟨List.replicate 20 65, false, false, []⟩
    [3, 7]).1 rfl⟩
  have h := (c2_strand_projection ⟨List.replicate 20 65, true, false, []⟩
    [3, 7]).2 rfl
  rw [h]; decide

/-- C5 -- `merge_two_lists A B` is sorted and is a permutation (hence
multiset-equal) of `A ++ B`, for arbitrary inputs, sorted or not. -/
theorem c5_merge_two_lists_sorted_perm {T : Type*} [LinearOrder T]
    (A B : List T) :
    (merge_two_lists A B).Sorted (· ≤ ·) ∧
      List.Perm (merge_two_lists A B) (A ++ B) := by
  constructor
  · exact List.sorted_mergeSort' _
  · simpa [merge_two_lists] using List.mergeSort_perm ([A, B].flatten) _

/-- C6 -- the reverse-strand projection is self-inverse: applying
`positions_on_complimented_sequence` twice on a reverse-strand record recovers
the original offsets (for the fixed sequence length of that record). -/
theorem c6_projection_self_inverse (record : Record) (ps : List Int)
    (h : record.is_reverse = true) :
    positions_on_complimented_sequence record
      (positions_on_complimented_sequence record ps) = ps := by
  simp [positions_on_complimented_sequence, h, List.map_reverse, List.map_map,
    Function.comp_def, sub_sub_cancel]

/-- C6 witness -- self-inversion at a concrete reverse-strand record. -/
theorem c6_projection_self_inverse_witness :
    positions_on_complimented_sequence ⟨[65, 67, 71, 84], true, false, []⟩
      (positions_on_complimented_sequence ⟨[65, 67, 71, 84], true, false, []⟩
        [0, 2, 3]) = [0, 2, 3] :=
  c6_projection_self_inverse ⟨[65, 67, 71, 84], true, false, []⟩ [0, 2, 3] rfl

/-- C10 -- on a reverse-strand record of sequence length `L`, every input
offset `p` is sent to `L - p`; consequently if every input lies in
`[0, pmax]` with `pmax ≤ L` then every projected offset lies in
`[L - pmax, L]`, and an input offset of `0` projects to `L` itself, one past
the last valid zero-based index `L - 1`. -/
theorem c10_reverse_projection_range (record : Record) (ps : List Int)
    (pmax : Int) (hrev : record.is_reverse = true)
    (hbound : ∀ p ∈ ps, 0 ≤ p ∧ p ≤ pmax) :
    (∀ q ∈ positions_on_complimented_sequence record ps,
      ∃ p ∈ ps, q = (record.seq_len : Int) - p) ∧
    (∀ q ∈ positions_on_complimented_sequence record ps,
      (record.seq_len : Int) - pmax ≤ q ∧ q ≤ (record.seq_len : Int)) ∧
    ((0 : Int) ∈ ps →
      (record.seq_len : Int) ∈ positions_on_complimented_sequence record ps) := by
  simp only [positions_on_complimented_sequence, hrev, if_true]
  refine ⟨?_, ?_, ?_⟩
  · intro q hq
    rcases List.mem_map.mp hq with ⟨p, hp, hpq⟩
    exact ⟨p, List.mem_reverse.mp hp, hpq.symm⟩
  · intro q hq
    rcases List.mem_map.mp hq with ⟨p, hp, hpq⟩
    rcases hbound p (List.mem_reverse.mp hp) with ⟨h0, hle⟩
    omega
  · intro h0
    refine List.mem_map.mpr ⟨0, List.mem_reverse.mpr h0, by simp⟩

/-- C10 witness -- concrete reverse-strand record of length 4 with inputs
`[0, 1, 3]`: projected offsets are `4 - p`, lie in `[1, 4]`, and `0` maps to
`L = 4`. -/
theorem c10_reverse_projection_range_witness :
    (∀ q ∈ positions_on_complimented_sequence ⟨[65, 67, 71, 84], true, false, []⟩
        [0, 1, 3], ∃ p ∈ [(0 : Int), 1, 3], q = (4 : Int) - p) ∧
    (∀ q ∈ positions_on_complimented_sequence ⟨[65, 67, 71, 84], true, false, []⟩
        [0, 1, 3], (1 : Int) ≤ q ∧ q ≤ 4) ∧
    ((0 : Int) ∈ [(0 : Int), 1, 3] →
      (4 : Int) ∈ positions_on_complimented_sequence
        ⟨[65, 67, 71, 84], true, false, []⟩ [0, 1, 3]) :=
  c10_reverse_projection_range ⟨[65, 67, 71, 84], true, false, []⟩ [0, 1, 3] 3
    rfl (by decide)

theorem resolveGo_complete (base : Nat) (seq : List Nat) :
    ∀ (dists : List Int) (ctr : Int) (i : Nat),
    (∀ d ∈ dists, 0 ≤ d) → 0 ≤ ctr →
    (∀ d, dists.head? = some d → ctr ≤ d) →
    dists.sum + dists.length ≤ (List.count base seq : Int) + ctr →
    (resolveGo base seq dists ctr i).2 = [] ∧
    (resolveGo base seq dists ctr i).1.length = dists.length ∧
    (∀ p ∈ (resolveGo base seq dists ctr i).1, (i : Int) ≤ p) ∧
    (resolveGo base seq dists ctr i).1.Pairwise (· < ·) := by
  induction seq with
  | nil =>
    intro dists ctr i hnn hctr hhead hcount
    cases dists with
    | nil => simp [resolveGo]
    | cons d ds =>
      exfalso
      have h1 : 0 ≤ ds.sum :=
        List.sum_nonneg fun x hx => hnn x (List.mem_cons_of_mem _ hx)
      have h2 : ctr ≤ d := hhead d rfl
      simp only [List.count_nil, List.sum_cons, List.length_cons] at hcount
      push_cast at hcount
      omega
  | cons c rest ih =>
    intro dists ctr i hnn hctr hhead hcount
    cases dists with
    | nil => simp [resolveGo]
    | cons d ds =>
      have hcnt : List.count base (c :: rest) =
          List.count base rest + (if c = base then 1 else 0) := by
        by_cases h : c = base <;> simp [List.count_cons, h]
      by_cases hc : c = base
      · by_cases hd : ctr = d
        · simp only [resolveGo, if_pos (And.intro hc hd)]
          have hds : ∀ x ∈ ds, 0 ≤ x := fun x hx => hnn x (List.mem_cons_of_mem _ hx)
          have hcount' : ds.sum + ds.length ≤ (List.count base rest : Int) + 0 := by
            rw [hcnt, if_pos hc] at hcount
            simp only [List.sum_cons, List.length_cons] at hcount
            push_cast at hcount ⊢
            omega
          have hhead' : ∀ x, ds.head? = some x → (0 : Int) ≤ x := by
            intro x hx
            exact hds x (by cases ds <;> simp_all)
          obtain ⟨h2, h3, h4, h5⟩ := ih ds 0 (i + 1) hds le_rfl hhead' hcount'
          refine ⟨h2, by simp [h3], ?_, ?_⟩
          · intro p hp
            rcases List.mem_cons.mp hp with h | h
            · exact le_of_eq h.symm
            · have := h4 p h; push_cast at this ⊢; omega
          · refine List.pairwise_cons.mpr ⟨?_, h5⟩
            intro p hp
            have := h4 p hp; push_cast at this ⊢; omega
        · have hcond : ¬(c = base ∧ ctr = d) := fun h => hd h.2
          simp only [resolveGo, if_neg hcond, if_pos hc]
          have hctr' : ctr < d := lt_of_le_of_ne (hhead d rfl) hd
          have hcount2 : (d :: ds).sum + ((d :: ds).length : Int) ≤
              (List.count base rest : Int) + (ctr + 1) := by
            rw [hcnt, if_pos hc] at hcount
            push_cast at hcount ⊢
            omega
          obtain ⟨h2, h3, h4, h5⟩ := ih (d :: ds) (ctr + 1) (i + 1) hnn (by omega)
            (fun x hx => by simp at hx; omega) hcount2
          exact ⟨h2, h3,
            fun p hp => by have := h4 p hp; push_cast at this ⊢; omega, h5⟩
      · have hcond : ¬(c = base ∧ ctr = d) := fun h => hc h.1
        simp only [resolveGo, if_neg hcond, if_neg hc]
        have hcount2 : (d :: ds).sum + ((d :: ds).length : Int) ≤
            (List.count base rest : Int) + ctr := by
          rw [hcnt, if_neg hc] at hcount
          push_cast at hcount ⊢
          omega
        obtain ⟨h2, h3, h4, h5⟩ := ih (d :: ds) ctr (i + 1) hnn hctr hhead hcount2
        exact ⟨h2, h3,
          fun p hp => by have := h4 p hp; push_cast at this ⊢; omega, h5⟩

/-- C1 -- when the forward-strand sequence carries enough canonical-base
occurrences to consume all `N` distances (at least `sum(dists) + N` of them),
the position-resolution scan of `BaseMods::new` succeeds and produces a
position list of length exactly `N` that is strictly increasing: exactly one
distance is consumed per recorded offset. -/
theorem c1_resolution_scan_length_strict_mono (base : Nat) (seq : List Nat)
    (dists : List Int) (hnn : ∀ d ∈ dists, 0 ≤ d)
    (hcount : dists.sum + dists.length ≤ (List.count base seq : Int)) :
    ∃ ps, resolvePositions base seq dists = some ps ∧
      ps.length = dists.length ∧ ps.Pairwise (· < ·) := by
  obtain ⟨h2, h3, _, h5⟩ := resolveGo_complete base seq dists 0 0 hnn le_rfl
    (fun d hd => hnn d (by cases dists <;> simp_all)) (by omega)
  exact ⟨(resolveGo base seq dists 0 0).1, by simp [resolvePositions, h2], h3, h5⟩

/-- C1 witness -- base `A` (65), sequence `A A C A`, distances `[1, 0]`:
the scan resolves to `[1, 3]`, of length 2 and strictly increasing. -/
theorem c1_resolution_scan_witness :
    (∀ d ∈ [(1 : Int), 0], 0 ≤ d) ∧
    ([(1 : Int), 0].sum + [(1 : Int), 0].length ≤
      (List.count 65 [65, 65, 67, 65] : Int)) ∧
    ∃ ps, resolvePositions 65 [65, 65, 67, 65] [1, 0] = some ps ∧
      ps.length = [(1 : Int), 0].length ∧ ps.Pairwise (· < ·) :=
  ⟨by decide, by decide,
    c1_resolution_scan_length_strict_mono 65 [65, 65, 67, 65] [1, 0]
      (by decide) (by decide)⟩

theorem resolveGo_incomplete (base : Nat) (seq : List Nat) :
    ∀ (dists : List Int) (ctr : Int) (i : Nat), 0 ≤ ctr →
    (List.count base seq : Int) + ctr < dists.sum + dists.length →
    (resolveGo base seq dists ctr i).2 ≠ [] := by
  induction seq with
  | nil =>
    intro dists ctr i hctr hcount
    cases dists with
    | nil => simp at hcount; omega
    | cons d ds => simp [resolveGo]
  | cons c rest ih =>
    intro dists ctr i hctr hcount
    cases dists with
    | nil =>
      exfalso
      simp only [List.sum_nil, List.length_nil] at hcount
      have : (0 : Int) ≤ (List.count base (c :: rest) : Int) := Int.natCast_nonneg _
      omega
    | cons d ds =>
      have hcnt : List.count base (c :: rest) =
          List.count base rest + (if c = base then 1 else 0) := by
        by_cases h : c = base <;> simp [List.count_cons, h]
      by_cases hc : c = base
      · by_cases hd : ctr = d
        · simp only [resolveGo, if_pos (And.intro hc hd)]
          refine ih ds 0 (i + 1) le_rfl ?_
          rw [hcnt, if_pos hc] at hcount
          simp only [List.sum_cons, List.length_cons] at hcount
          push_cast at hcount ⊢
          omega
        · have hcond : ¬(c = base ∧ ctr = d) := fun h => hd h.2
          simp only [resolveGo, if_neg hcond, if_pos hc]
          refine ih (d :: ds) (ctr + 1) (i + 1) (by omega) ?_
          rw [hcnt, if_pos hc] at hcount
          push_cast at hcount ⊢
          omega
      · have hcond : ¬(c = base ∧ ctr = d) := fun h => hc h.1
        simp only [resolveGo, if_neg hcond, if_neg hc]
        refine ih (d :: ds) ctr (i + 1) hctr ?_
        rw [hcnt, if_neg hc] at hcount
        push_cast at hcount ⊢
        omega

theorem resolvePositions_eq_none (base : Nat) (seq : List Nat)
    (dists : List Int)
    (hcount : (List.count base seq : Int) < dists.sum + dists.length) :
    resolvePositions base seq dists = none := by
  have := resolveGo_incomplete base seq dists 0 0 le_rfl (by omega)
  simp [resolvePositions, this]

theorem parseDistChain_succ_comma (fuel : Nat) (rest : List Char) :
    parseDistChain (fuel + 1) (',' :: rest) =
      if (rest.takeWhile Char.isDigit).isEmpty then ([], ',' :: rest)
      else
        (',' :: (rest.takeWhile Char.isDigit ++
            (parseDistChain fuel (rest.dropWhile Char.isDigit)).1),
          (parseDistChain fuel (rest.dropWhile Char.isDigit)).2) := rfl

theorem parseDistChain_succ_other (fuel : Nat) (c : Char) (rest : List Char)
    (hc : ¬c = ',') : parseDistChain (fuel + 1) (c :: rest) = ([], c :: rest) := by
  rw [parseDistChain.eq_def]
  split <;> simp_all

theorem parseDistChain_rest_le (fuel : Nat) :
    ∀ l : List Char, (parseDistChain fuel l).2.length ≤ l.length := by
  induction fuel with
  | zero => intro l; simp [parseDistChain]
  | succ n ih =>
    intro l
    cases l with
    | nil => simp [parseDistChain]
    | cons c rest =>
      by_cases hc : c = ','
      · subst hc
        rw [parseDistChain_succ_comma]
        by_cases hdig : (rest.takeWhile Char.isDigit).isEmpty
        · rw [if_pos hdig]
        · rw [if_neg hdig]
          have h2 := List.Sublist.length_le
            (List.dropWhile_sublist (p := Char.isDigit) (l := rest))
          have h3 := ih (rest.dropWhile Char.isDigit)
          simp only [List.length_cons]
          omega
      · rw [parseDistChain_succ_other n c rest hc]

theorem parseDistChain_fuel (f1 : Nat) :
    ∀ (f2 : Nat) (l : List Char), l.length ≤ f1 → l.length ≤ f2 →
    parseDistChain f1 l = parseDistChain f2 l := by
  induction f1 with
  | zero =>
    intro f2 l h1 _
    have hl : l = [] := List.length_eq_zero.mp (Nat.le_zero.mp h1)
    subst hl
    cases f2 with
    | zero => rfl
    | succ m => rfl
  | succ n ih =>
    intro f2 l h1 h2
    cases f2 with
    | zero =>
      have hl : l = [] := List.length_eq_zero.mp (Nat.le_zero.mp h2)
      subst hl
      rfl
    | succ m =>
      cases l with
      | nil => rfl
      | cons c rest =>
        by_cases hc : c = ','
        · subst hc
          rw [parseDistChain_succ_comma n rest, parseDistChain_succ_comma m rest]
          by_cases hdig : (rest.takeWhile Char.isDigit).isEmpty
          · rw [if_pos hdig, if_pos hdig]
          · rw [if_neg hdig, if_neg hdig]
            have h3 := List.Sublist.length_le
              (List.dropWhile_sublist (p := Char.isDigit) (l := rest))
            simp only [List.length_cons] at h1 h2
            rw [ih m (rest.dropWhile Char.isDigit) (by omega) (by omega)]
        · rw [parseDistChain_succ_other n c rest hc,
            parseDistChain_succ_other m c rest hc]

theorem parseDistReps_rest_le (fuel : Nat) :
    ∀ (l : List Char) (last : Option (List Char)),
    (parseDistReps fuel l last).2.length ≤ l.length := by
  induction fuel with
  | zero => intro l last; simp [parseDistReps]
  | succ n ih =>
    intro l last
    simp only [parseDistReps]
    split
    · rename_i rest2 heq
      have h1 := ih rest2 (some ((parseDistChain l.length l).1 ++ [';']))
      have h2 : rest2.length < l.length := by
        have h3 := parseDistChain_rest_le l.length l
        rw [heq] at h3
        simp only [List.length_cons] at h3
        omega
      omega
    · simp

theorem parseDistReps_fuel (f1 : Nat) :
    ∀ (f2 : Nat) (l : List Char) (last : Option (List Char)),
    l.length < f1 → l.length < f2 →
    parseDistReps f1 l last = parseDistReps f2 l last := by
  induction f1 with
  | zero => intro f2 l last h1 _; exact absurd h1 (Nat.not_lt_zero _)
  | succ n ih =>
    intro f2 l last h1 h2
    cases f2 with
    | zero => exact absurd h2 (Nat.not_lt_zero _)
    | succ m =>
      cases heq : (parseDistChain l.length l).2 with
      | nil => simp [parseDistReps, heq]
      | cons c rest2 =>
        by_cases hc : c = ';'
        · subst hc
          simp only [parseDistReps, heq]
          have hlt : rest2.length < l.length := by
            have h3 := parseDistChain_rest_le l.length l
            rw [heq] at h3
            simp only [List.length_cons] at h3
            omega
          exact ih m rest2 _ (by omega) (by omega)
        · simp [parseDistReps, heq, hc]

theorem skipMarker_length_le (l : List Char) : (skipMarker l).length ≤ l.length := by
  cases l with
  | nil => simp [skipMarker]
  | cons c rest =>
    simp only [skipMarker]
    split <;> simp

theorem finishMMMatch_rest_le (b s : Char) (code l : List Char) :
    (finishMMMatch b s code l).2.length ≤ l.length :=
  le_trans (parseDistReps_rest_le _ _ _) (skipMarker_length_le l)

theorem matchMMAt_rest_lt (l : List Char) (cap : MMCapture) (rest : List Char)
    (h : matchMMAt l = some (cap, rest)) : rest.length < l.length := by
  cases l with
  | nil => simp [matchMMAt] at h
  | cons b t =>
    cases t with
    | nil => simp [matchMMAt] at h
    | cons s rest0 =>
      simp only [matchMMAt] at h
      split at h
      · split at h
        · rename_i hrun
          have h1 := finishMMMatch_rest_le b s (rest0.takeWhile Char.isLower)
            (rest0.dropWhile Char.isLower)
          have h2 := List.Sublist.length_le
            (List.dropWhile_sublist (p := Char.isLower) (l := rest0))
          rw [Option.some_inj] at h
          have h3 : rest = (finishMMMatch b s (rest0.takeWhile Char.isLower)
              (rest0.dropWhile Char.isLower)).2 := by
            rw [h]
          rw [h3]
          simp only [List.length_cons]
          omega
        · split at h
          · rename_i hrun2
            have h1 := finishMMMatch_rest_le b s (rest0.takeWhile Char.isDigit)
              (rest0.dropWhile Char.isDigit)
            have h2 := List.Sublist.length_le
              (List.dropWhile_sublist (p := Char.isDigit) (l := rest0))
            rw [Option.some_inj] at h
            have h3 : rest = (finishMMMatch b s (rest0.takeWhile Char.isDigit)
                (rest0.dropWhile Char.isDigit)).2 := by
              rw [h]
            rw [h3]
            simp only [List.length_cons]
            omega
          · exact absurd h (by simp)
      · exact absurd h (by simp)

theorem mmCapturesGo_fuel (f1 : Nat) :
    ∀ (f2 : Nat) (l : List Char), l.length ≤ f1 → l.length ≤ f2 →
    mmCapturesGo f1 l = mmCapturesGo f2 l := by
  induction f1 with
  | zero =>
    intro f2 l h1 _
    have : l = [] := List.length_eq_zero.mp (Nat.le_zero.mp h1)
    subst this
    cases f2 <;> simp [mmCapturesGo]
  | succ n ih =>
    intro f2 l h1 h2
    cases l with
    | nil => cases f2 <;> simp [mmCapturesGo]
    | cons c rest =>
      cases f2 with
      | zero => simp at h2
      | succ m =>
        simp only [mmCapturesGo]
        cases heq : matchMMAt (c :: rest) with
        | none =>
          simp only [List.length_cons] at h1 h2
          exact ih m rest (by omega) (by omega)
        | some pr =>
          obtain ⟨cap, rest2⟩ := pr
          have hlt := matchMMAt_rest_lt (c :: rest) cap rest2 heq
          simp only [List.length_cons] at h1 h2 hlt
          dsimp only
          rw [ih m rest2 (by omega) (by omega)]

theorem parseDistChain_chars (fuel : Nat) :
    ∀ (l : List Char), ∀ c ∈ (parseDistChain fuel l).1,
      c = ',' ∨ c.isDigit = true := by
  induction fuel with
  | zero => intro l c hc; simp [parseDistChain] at hc
  | succ n ih =>
    intro l c hc
    cases l with
    | nil => simp [parseDistChain] at hc
    | cons a rest =>
      by_cases ha : a = ','
      · subst ha
        rw [parseDistChain_succ_comma] at hc
        by_cases hdig : (rest.takeWhile Char.isDigit).isEmpty
        · rw [if_pos hdig] at hc
          simp at hc
        · rw [if_neg hdig] at hc
          simp only [List.mem_cons, List.mem_append] at hc
          rcases hc with h1 | h2 | h3
          · exact Or.inl h1
          · exact Or.inr (List.mem_takeWhile_imp h2)
          · exact ih (rest.dropWhile Char.isDigit) c h3
      · rw [parseDistChain_succ_other n a rest ha] at hc
        simp at hc

theorem parseDistReps_good (fuel : Nat) :
    ∀ (l : List Char) (last : Option (List Char)),
    (∀ d, last = some d → goodDistRun d) →
    ∀ d, (parseDistReps fuel l last).1 = some d → goodDistRun d := by
  induction fuel with
  | zero => intro l last hlast d hd; exact hlast d hd
  | succ n ih =>
    intro l last hlast d hd
    simp only [parseDistReps] at hd
    split at hd
    · rename_i rest2 heq
      refine ih rest2 _ ?_ d hd
      intro d2 hd2
      rw [Option.some_inj] at hd2
      exact ⟨(parseDistChain l.length l).1, hd2.symm,
        parseDistChain_chars l.length l⟩
    · exact hlast d hd

theorem matchMMAt_good (l : List Char) (cap : MMCapture) (rest : List Char)
    (h : matchMMAt l = some (cap, rest)) :
    ∀ d, cap.dists = some d → goodDistRun d := by
  cases l with
  | nil => simp [matchMMAt] at h
  | cons b t =>
    cases t with
    | nil => simp [matchMMAt] at h
    | cons s rest0 =>
      simp only [matchMMAt] at h
      split at h
      · split at h
        · rw [Option.some_inj] at h
          have hcap : cap = (finishMMMatch b s (rest0.takeWhile Char.isLower)
              (rest0.dropWhile Char.isLower)).1 := by rw [h]
          rw [hcap]
          intro d hd
          exact parseDistReps_good _ _ none (by intro d2 hd2; simp at hd2) d hd
        · split at h
          · rw [Option.some_inj] at h
            have hcap : cap = (finishMMMatch b s (rest0.takeWhile Char.isDigit)
                (rest0.dropWhile Char.isDigit)).1 := by rw [h]
            rw [hcap]
            intro d hd
            exact parseDistReps_good _ _ none (by intro d2 hd2; simp at hd2) d hd
          · exact absurd h (by simp)
      · exact absurd h (by simp)

theorem mmCapturesGo_good (fuel : Nat) :
    ∀ (l : List Char) (cap : MMCapture), cap ∈ mmCapturesGo fuel l →
    ∀ d, cap.dists = some d → goodDistRun d := by
  induction fuel with
  | zero => intro l cap hcap; simp [mmCapturesGo] at hcap
  | succ n ih =>
    intro l cap hcap
    cases l with
    | nil => simp [mmCapturesGo] at hcap
    | cons c rest =>
      simp only [mmCapturesGo] at hcap
      cases heq : matchMMAt (c :: rest) with
      | none =>
        rw [heq] at hcap
        exact ih rest cap hcap
      | some pr =>
        obtain ⟨cap2, rest2⟩ := pr
        rw [heq] at hcap
        simp only [List.mem_cons] at hcap
        rcases hcap with h1 | h2
        · subst h1
          exact matchMMAt_good (c :: rest) cap rest2 heq
        · exact ih rest2 cap h2

theorem splitComma_mem_chars (l0 : List Char) :
    ∀ t ∈ splitComma l0, ∀ c ∈ t, c ∈ l0 ∧ ¬c = ',' := by
  induction l0 with
  | nil => intro t ht c hc; simp [splitComma] at ht; subst ht; simp at hc
  | cons a rest ih =>
    intro t ht c hc
    simp only [splitComma] at ht
    by_cases ha : a = ','
    · rw [if_pos ha] at ht
      rcases List.mem_cons.mp ht with h1 | h2
      · subst h1; simp at hc
      · obtain ⟨h3, h4⟩ := ih t h2 c hc
        exact ⟨List.mem_cons_of_mem _ h3, h4⟩
    · rw [if_neg ha] at ht
      cases hsp : splitComma rest with
      | nil =>
        rw [hsp] at ht
        simp only [List.mem_singleton] at ht
        subst ht
        simp only [List.mem_singleton] at hc
        subst hc
        exact ⟨List.mem_cons_self _ _, ha⟩
      | cons t0 ts =>
        rw [hsp] at ht
        rcases List.mem_cons.mp ht with h1 | h2
        · subst h1
          rcases List.mem_cons.mp hc with h3 | h4
          · subst h3; exact ⟨List.mem_cons_self _ _, ha⟩
          · obtain ⟨h5, h6⟩ := ih t0 (hsp ▸ List.mem_cons_self t0 ts) c h4
            exact ⟨List.mem_cons_of_mem _ h5, h6⟩
        · obtain ⟨h5, h6⟩ := ih t (hsp ▸ List.mem_cons_of_mem t0 h2) c hc
          exact ⟨List.mem_cons_of_mem _ h5, h6⟩

theorem trimEndSemis_append_semi (chain : List Char)
    (h : ∀ c ∈ chain, ¬c = ';') : trimEndSemis (chain ++ [';']) = chain := by
  unfold trimEndSemis
  rw [List.reverse_append]
  simp only [List.reverse_cons, List.reverse_nil, List.nil_append,
    List.singleton_append, List.dropWhile_cons]
  simp only [beq_self_eq_true, if_true]
  cases hrev : chain.reverse with
  | nil =>
    have : chain = [] := by simpa using congrArg List.reverse hrev
    simp [hrev, this]
  | cons c rest =>
    have hc : c ∈ chain := by
      have : c ∈ chain.reverse := hrev ▸ List.mem_cons_self c rest
      exact List.mem_reverse.mp this
    have hcne : (c == ';') = false := by
      simpa using h c hc
    rw [List.dropWhile_cons, hcne]
    simp [← hrev]

theorem trimChars_subset (l : List Char) : ∀ c ∈ trimChars l, c ∈ l := by
  intro c hc
  unfold trimChars at hc
  rw [List.mem_reverse] at hc
  have h1 := List.dropWhile_subset (p := Char.isWhitespace)
    (l := (l.dropWhile Char.isWhitespace).reverse) hc
  rw [List.mem_reverse] at h1
  exact List.dropWhile_subset _ h1

theorem goodDistRun_tokens (d : List Char) (h : goodDistRun d) :
    ∀ tok ∈ ((splitComma (trimEndSemis d)).map trimChars).filter
      (fun t => !t.isEmpty),
      ¬tok = [] ∧ ∀ c ∈ tok, c.isDigit = true := by
  obtain ⟨chain, hd, hchars⟩ := h
  subst hd
  have hnosemi : ∀ c ∈ chain, ¬c = ';' := by
    intro c hc hsemi
    rcases hchars c hc with h1 | h2
    · subst hsemi; simp at h1
    · subst hsemi; simp [Char.isDigit] at h2
  rw [trimEndSemis_append_semi chain hnosemi]
  intro tok htok
  rw [List.mem_filter] at htok
  obtain ⟨hmem, hne⟩ := htok
  rw [List.mem_map] at hmem
  obtain ⟨t, ht, htt⟩ := hmem
  constructor
  · intro hnil
    rw [hnil] at hne
    simp at hne
  · intro c hc
    have hct : c ∈ t := trimChars_subset t c (by rw [htt]; exact hc)
    obtain ⟨hcchain, hcne⟩ := splitComma_mem_chars chain t ht c hct
    rcases hchars c hcchain with h1 | h2
    · exact absurd h1 hcne
    · exact h2

/-- C4 counterexample -- the MM tag text `C+m,a,3;` contains the non-numeric
distance token `a`, yet `BaseMods::new` does not fail on it: the grammar drops
the malformed distance run, the group decodes with an empty distance list, and
decoding returns normally instead of aborting. -/
theorem c4_nonnumeric_not_fatal_counterexample :
    BaseMods.new (fun _ _ => []) ⟨[67], false, false,
      [("MM", Aux.string "C+m,a,3;")]⟩ =
      some [⟨67, '+', 'm', [], []⟩] := by
  rfl

/-- C4 (amended) -- a non-numeric distance token never reaches the numeric
parser: every distance token produced from a capture of `MM_RE` (split from
the group-6 text exactly as `BaseMods::new` does) is a nonempty all-digit
string, so malformed distance text is excluded by the grammar rather than
aborting the batch. -/
theorem c4_captured_distance_tokens_numeric (s : String) (cap : MMCapture)
    (hcap : cap ∈ mmCaptures s) (d : List Char) (hd : cap.dists = some d) :
    ∀ tok ∈ ((splitComma (trimEndSemis d)).map trimChars).filter
      (fun t => !t.isEmpty),
      ¬tok = [] ∧ ∀ c ∈ tok, c.isDigit = true :=
  goodDistRun_tokens d (mmCapturesGo_good s.data.length s.data cap hcap d hd)

/-- C4 (amended) witness -- the sole capture of `C+m,5,13;` carries the
distance text `,5,13;`, whose tokens `5` and `13` are nonempty digit
strings. -/
theorem c4_captured_distance_tokens_numeric_witness :
    (⟨'C', '+', ['m'], some [',', '5', ',', '1', '3', ';']⟩ : MMCapture) ∈
        mmCaptures "C+m,5,13;" ∧
      ∀ tok ∈ ((splitComma (trimEndSemis [',', '5', ',', '1', '3', ';'])).map
          trimChars).filter (fun t => !t.isEmpty),
        ¬tok = [] ∧ ∀ c ∈ tok, c.isDigit = true :=
  ⟨by decide,
    c4_captured_distance_tokens_numeric "C+m,5,13;"
      ⟨'C', '+', ['m'], some [',', '5', ',', '1', '3', ';']⟩ (by decide)
      [',', '5', ',', '1', '3', ';'] rfl⟩

theorem decodeCaptures_eq_none (lift : Record → List Int → List Int)
    (record : Record) (caps : List MMCapture) (cap : MMCapture)
    (hmem : cap ∈ caps) (hnone : processCapture lift record cap = none) :
    decodeCaptures lift record caps = none := by
  induction caps with
  | nil => simp at hmem
  | cons c cs ih =>
    rcases List.mem_cons.mp hmem with h1 | h2
    · subst h1
      simp [decodeCaptures, hnone]
    · simp only [decodeCaptures]
      rw [ih h2]
      cases processCapture lift record c <;> rfl

/-- C3 -- when the forward-strand sequence is exhausted before a capture's
distance list is consumed (the canonical base occurs fewer than
`sum(dists) + N` times), `BaseMods::new` fails for the whole record: the
`assert_eq!` fires and no partial result is returned. -/
theorem c3_exhausted_sequence_aborts (lift : Record → List Int → List Int)
    (record : Record) (mm : String) (cap : MMCapture) (dists : List Int)
    (hmm : record.auxTag "MM" = some (Aux.string mm))
    (hcap : cap ∈ mmCaptures mm)
    (hdists : parseDists (cap.dists.getD []) = some dists)
    (hcount : (List.count cap.base.toNat (forwardBases record) : Int) <
      dists.sum + dists.length) :
    BaseMods.new lift record = none := by
  unfold BaseMods.new
  rw [hmm]
  refine decodeCaptures_eq_none lift record (mmCaptures mm) cap hcap ?_
  unfold processCapture
  rw [hdists]
  show Option.bind
    (resolvePositions cap.base.toNat (forwardBases record) dists) _ = none
  rw [resolvePositions_eq_none cap.base.toNat (forwardBases record) dists hcount]
  rfl

/-- C3 witness -- record with sequence `ACG` (one `A`) and MM tag `A+a,5;`
(one distance requiring six `A`s): decoding aborts. -/
theorem c3_exhausted_sequence_aborts_witness :
    BaseMods.new (fun _ _ => [])
      ⟨[65, 67, 71], false, false, [("MM", Aux.string "A+a,5;")]⟩ = none :=
  c3_exhausted_sequence_aborts (fun _ _ => [])
    ⟨[65, 67, 71], false, false, [("MM", Aux.string "A+a,5;")]⟩
    "A+a,5;" ⟨'A', '+', ['a'], some [',', '5', ';']⟩ [5]
    rfl (by decide) rfl (by decide)

/-- C9 -- when the record's MM auxiliary tag is absent or not string-valued,
`BaseMods::new` returns the empty group list without failing (the source only
emits a debug log note in that branch). -/
theorem c9_missing_mm_tag_empty (lift : Record → List Int → List Int)
    (record : Record)
    (h : ∀ s, ¬record.auxTag "MM" = some (Aux.string s)) :
    BaseMods.new lift record = some [] := by
  unfold BaseMods.new
  cases hm : record.auxTag "MM" with
  | none => rfl
  | some a =>
    cases a with
    | string s => exact absurd hm (h s)
    | arrayU32 l => rfl
    | other => rfl

/-- C9 witness -- a record carrying only a numeric-array tag decodes to the
empty group list. -/
theorem c9_missing_mm_tag_empty_witness :
    BaseMods.new (fun _ _ => [])
      ⟨[65], false, false, [("nl", Aux.arrayU32 [1])]⟩ = some [] :=
  c9_missing_mm_tag_empty (fun _ _ => [])
    ⟨[65], false, false, [("nl", Aux.arrayU32 [1])]⟩
    (fun s hs => by
      have hnone : (⟨[65], false, false, [("nl", Aux.arrayU32 [1])]⟩ :
          Record).auxTag "MM" = none := rfl
      rw [hnone] at hs
      exact Option.noConfusion hs)

/-- C7 -- `extract_from_record` with the reference flag returns the first
decoded group's `modified_reference_positions` exactly when the record is
mapped and at least one group decodes; in every other case (flag unset, record
unmapped, or no groups) it returns the empty list. -/
theorem c7_extract_from_record_first_group (lift : Record → List Int → List Int)
    (record : Record) (reference : Bool) (mods : List BaseMods)
    (h : BaseMods.new lift record = some mods) :
    (mods = [] → extract_from_record lift record reference = some []) ∧
    (reference = false → extract_from_record lift record reference = some []) ∧
    (record.is_unmapped = true →
      extract_from_record lift record reference = some []) ∧
    (∀ m ms, mods = m :: ms → reference = true → record.is_unmapped = false →
      extract_from_record lift record reference =
        some m.modified_reference_positions) := by
  unfold extract_from_record
  rw [h]
  refine ⟨?_, ?_, ?_, ?_⟩
  · intro hm; subst hm; rfl
  · intro hr; subst hr
    cases mods with
    | nil => rfl
    | cons m ms => simp
  · intro hu
    cases mods with
    | nil => rfl
    | cons m ms => simp [hu]
  · intro m ms hm hr hu
    subst hm hr
    simp [hu]

/-- C7 witness -- mapped record with MM tag `A+a,0;` and identity liftover:
with the flag set the first group's reference positions `[0]` are returned;
with the flag unset the empty list is returned. -/
theorem c7_extract_from_record_first_group_witness :
    (∀ m ms,
        [(⟨65, '+', 'a', [0], [0]⟩ : BaseMods)] = m :: ms → true = true →
        (⟨[65], false, false, [("MM", Aux.string "A+a,0;")]⟩ :
            Record).is_unmapped = false →
        extract_from_record (fun _ ps => ps)
            ⟨[65], false, false, [("MM", Aux.string "A+a,0;")]⟩ true =
          some m.modified_reference_positions) ∧
    (false = false →
      extract_from_record (fun _ ps => ps)
          ⟨[65], false, false, [("MM", Aux.string "A+a,0;")]⟩ false =
        some []) :=
  ⟨(c7_extract_from_record_first_group (fun _ ps => ps)
      ⟨[65], false, false, [("MM", Aux.string "A+a,0;")]⟩ true
      [⟨65, '+', 'a', [0], [0]⟩] rfl).2.2.2,
    (c7_extract_from_record_first_group (fun _ ps => ps)
      ⟨[65], false, false, [("MM", Aux.string "A+a,0;")]⟩ false
      [⟨65, '+', 'a', [0], [0]⟩] rfl).2.1⟩

theorem extractChunks_small (rs : List Record) :
    ∀ (cur : List Record) (cnt : Nat), rs.length + cnt < 10000 →
    extractChunks rs cur cnt = [cur ++ rs] := by
  induction rs with
  | nil => intro cur cnt _; simp [extractChunks]
  | cons r rest ih =>
    intro cur cnt h
    simp only [List.length_cons] at h
    simp only [extractChunks]
    rw [if_neg (by omega)]
    rw [ih (cur ++ [r]) (cnt + 1) (by omega)]
    simp

theorem extractChunks_split (rs : List Record) :
    ∀ (cur : List Record) (cnt : Nat), cnt < 10000 → 10000 ≤ rs.length + cnt →
    extractChunks rs cur cnt =
      (cur ++ rs.take (10000 - cnt)) ::
        extractChunks (rs.drop (10000 - cnt)) [] 0 := by
  induction rs with
  | nil =>
    intro cur cnt h1 h2
    simp only [List.length_nil, Nat.zero_add] at h2
    omega
  | cons r rest ih =>
    intro cur cnt h1 h2
    simp only [extractChunks]
    by_cases hc : cnt + 1 = 10000
    · rw [if_pos hc]
      have ht : 10000 - cnt = 1 := by omega
      rw [ht]
      simp
    · rw [if_neg hc]
      simp only [List.length_cons] at h2
      rw [ih (cur ++ [r]) (cnt + 1) (by omega) (by omega)]
      have ht : 10000 - cnt = (10000 - (cnt + 1)) + 1 := by omega
      rw [ht]
      simp [List.take_succ_cons, List.drop_succ_cons, List.append_assoc]

/-- C8 -- `extract_contained` flushes in chunks of exactly 10000: over any
input of exactly 10001 records it performs two flushes, of 10000 and 1
records; over the empty stream it performs only the final flush of an empty
chunk, so no record is processed and the result does not depend on the
liftover collaborator at all (it is invoked zero times). -/
theorem c8_chunking (lift : Record → List Int → List Int)
    (records : List Record) (reference : Bool) (h : records.length = 10001) :
    (extract_contained lift records reference).map List.length = [10000, 1] ∧
    ∀ lf : Record → List Int → List Int,
      extract_contained lf ([] : List Record) reference = [[]] := by
  constructor
  · unfold extract_contained
    rw [extractChunks_split records [] 0 (by omega) (by omega)]
    rw [extractChunks_small (records.drop 10000) [] 0 (by simp [h])]
    simp [h]
  · intro lf
    rfl

/-- C8 witness -- 10001 identical records yield flush sizes `[10000, 1]`, and
the empty stream yields the single empty flush for every liftover function. -/
theorem c8_chunking_witness :
    ((extract_contained (fun _ _ => [])
        (List.replicate 10001 ⟨[], false, false, []⟩) false).map List.length =
      [10000, 1]) ∧
    ∀ lf : Record → List Int → List Int,
      extract_contained lf ([] : List Record) false = [[]] :=
  c8_chunking (fun _ _ => []) (List.replicate 10001 ⟨[], false, false, []⟩)
    false (List.length_replicate 10001 _)

end Extract
